import Mathlib

/-!
Verification of the resume-evaluation service (`app.py`).

The Python program keeps a global mutable list `rankings : list[dict]` of
leaderboard entries (Python dictionaries).  Because entries are shared by
reference between the per-request `results` list and the global `rankings`
list, and because the sort/rank step mutates those dictionaries in place,
we embed the state with an explicit heap: entries live in heap cells, and
both the leaderboard and the per-request result list are lists of
references (cell indices) into that heap.

External effects (the PDF text extraction library, the AI completion API,
and uuid generation) are modelled as oracles carried by each uploaded
file: the file input records the bytes, the text that extraction would
return, the outcome of the AI call, and the freshly generated id.
-/

namespace ResumeEval

/-- The validated AI response shape (`EvaluationResponse` in `app.py`):
pydantic model with `score : int` constrained to `0 ≤ score ≤ 100`,
two strings and a list of edit strings. -/
structure EvaluationResponse where
  score : Int
  suggestion : String
  justification : String
  edits : List String
deriving Repr, DecidableEq

/-- The fixed fallback result built in the `except` branch of `call_ai`:
`score=0, suggestion="AI Service Unavailable",
justification="Could not process resume.", edits=[]`. -/
def fallbackResponse : EvaluationResponse :=
  { score := 0
    suggestion := "AI Service Unavailable"
    justification := "Could not process resume."
    edits := [] }

/-- Oracle for one invocation of the AI service inside `call_ai`:
either some exception is raised before a candidate response is parsed
(network failure, malformed JSON, a missing field), or the JSON was
parsed into the four candidate fields, which pydantic then validates. -/
inductive AIOutcome where
  | apiFailure : AIOutcome
  | parsed (score : Int) (suggestion justification : String)
      (edits : List String) : AIOutcome
deriving Repr, DecidableEq

/-- Pydantic validation of `EvaluationResponse`: the score must lie in
`[0, 100]` (`ge=0, le=100`); out of range raises, which `call_ai`
catches. -/
def validateResponse (score : Int) (suggestion justification : String)
    (edits : List String) : Option EvaluationResponse :=
  if 0 ≤ score ∧ score ≤ 100 then
    some { score := score, suggestion := suggestion,
           justification := justification, edits := edits }
  else
    none

/-- Body of `call_ai` in `evaluate_resume`: every exception inside the
`try` block (the API call, `json.loads`, pydantic validation) lands in
the `except` branch and yields the fixed fallback response. -/
def call_ai (o : AIOutcome) : EvaluationResponse :=
  match o with
  | .apiFailure => fallbackResponse
  | .parsed sc sg ju ed =>
    match validateResponse sc sg ju ed with
    | some r => r
    | none => fallbackResponse

/-- The `evaluate_resume` coroutine: runs `call_ai` on a worker thread and
returns its result; the job description and resume text only feed the
prompt, whose effect is abstracted into the `AIOutcome` oracle. -/
def evaluate_resume (jd resume : String) (o : AIOutcome) : EvaluationResponse :=
  let _ := jd
  let _ := resume
  call_ai o

/-- One leaderboard entry: the dictionary built in the `evaluate` handler,
`id = str(uuid4())[:8]`, the original filename, and the four fields of the
model dump.  A freshly built dictionary has no `"rank"` key, so `rank` is
an `Option`; the sort/rank loops later store `some (i+1)` into it. -/
structure Entry where
  id : String
  filename : String
  score : Int
  suggestion : String
  justification : String
  edits : List String
  rank : Option Nat
deriving Repr, DecidableEq

instance : Inhabited Entry :=
  ⟨{ id := "", filename := "", score := 0, suggestion := "",
     justification := "", edits := [], rank := none }⟩

/-- The heap of entry dictionaries; a reference is an index into it. -/
abbrev Heap := List Entry

/-- A reference to an entry dictionary (Python object identity). -/
abbrev Ref := Nat

/-- Dereference a heap cell (total, with a junk default off the heap). -/
def entryAt (h : Heap) (r : Ref) : Entry := h.getD r default

/-- The score stored in the referenced dictionary. -/
def scoreAt (h : Heap) (r : Ref) : Int := (entryAt h r).score

/-- The rank stored in the referenced dictionary, if any. -/
def rankAt (h : Heap) (r : Ref) : Option Nat := (entryAt h r).rank

/-- In-place update `d["rank"] = n` of the dictionary in cell `r`. -/
def setRank (h : Heap) (r : Ref) (n : Nat) : Heap :=
  h.set r { entryAt h r with rank := some n }

/-- The loop `for i, r in enumerate(ranked): r["rank"] = i + 1`, started
at `i0`: writes rank `i0` into the first referenced cell, `i0 + 1` into
the second, and so on. -/
def assignRanks : Heap → List Ref → Nat → Heap
  | h, [], _ => h
  | h, r :: rs, i => assignRanks (setRank h r i) rs (i + 1)

/-- Insert `a` into a list sorted by `k` descending, in front of the first
element whose key is `≤ k a`; this is the insertion step of a stable
descending sort, matching Python `sort(key=..., reverse=True)`. -/
def insertByKey (k : α → Int) (a : α) : List α → List α
  | [] => [a]
  | b :: l => if k b ≤ k a then a :: b :: l else b :: insertByKey k a l

/-- Stable sort by the key `k`, descending: the behaviour of Python
`sorted(..., key=..., reverse=True)` and `list.sort(key=..., reverse=True)`
observed on list contents. -/
def sortByKey (k : α → Int) : List α → List α
  | [] => []
  | a :: l => insertByKey k a (sortByKey k l)

/-- The shared server state: the heap of entry dictionaries plus the
global `rankings` list of references. -/
structure ServerState where
  heap : Heap
  rankings : List Ref
deriving Repr, DecidableEq

/-- The state at process start: `rankings = []`. -/
def initialState : ServerState := { heap := [], rankings := [] }

/-- A state is valid when every stored reference points into the heap. -/
def ValidState (s : ServerState) : Prop :=
  ∀ r ∈ s.rankings, r < s.heap.length

instance : DecidablePred ValidState := fun s =>
  inferInstanceAs (Decidable (∀ r ∈ s.rankings, r < s.heap.length))

/-- The sort-and-rank step run by a successful `POST /evaluate`:
`rankings.sort(key=lambda x: x["score"], reverse=True)` followed by the
rank-assignment loop.  The global list is reordered in place and every
referenced dictionary gets its 1-based position written into `"rank"`. -/
def sortAndRank (s : ServerState) : ServerState :=
  let sorted := sortByKey (scoreAt s.heap) s.rankings
  { heap := assignRanks s.heap sorted 1, rankings := sorted }

/-- The `GET /` handler (`index`): sorts a fresh copy
(`sorted_rankings = sorted(rankings, ...)`) leaving the stored list's
order untouched, then writes `rank = i + 1` into each shared dictionary;
returns the new state together with the sorted view handed to the
template. -/
def indexOp (s : ServerState) : ServerState × List Ref :=
  let sorted := sortByKey (scoreAt s.heap) s.rankings
  ({ heap := assignRanks s.heap sorted 1, rankings := s.rankings }, sorted)

/-- The `POST /clear` handler: `rankings.clear()`.  The dictionaries
themselves are not touched (they become garbage). -/
def clearOp (s : ServerState) : ServerState :=
  { heap := s.heap, rankings := [] }

/-- One uploaded file, together with the oracles for its external
effects: the raw bytes, the text `extract_text` would return for those
bytes, the outcome of the AI call for it, and the id `uuid4()[:8]` that
would be generated for it. -/
structure FileInput where
  filename : String
  content : List Nat
  extracted : String
  ai : AIOutcome
  freshId : String
deriving Repr, DecidableEq

/-- Python `str.lower()` restricted to what matters for extension checks:
each character is lowercased individually (ASCII case folding is all the
`.pdf`/`.PDF` comparison exercises). -/
def pyLower (s : String) : String := ⟨s.data.map Char.toLower⟩

/-- Python `str.endswith(p)`: a suffix test on the character sequence. -/
def pyEndsWith (s p : String) : Bool := p.data.isSuffixOf s.data

/-- The dictionary built for an accepted file:
`entry = dict(id=..., filename=..., **res.model_dump())`; no `"rank"` key
yet. -/
def mkEntry (f : FileInput) : Entry :=
  let r := call_ai f.ai
  { id := f.freshId
    filename := f.filename
    score := r.score
    suggestion := r.suggestion
    justification := r.justification
    edits := r.edits
    rank := none }

/-- The per-file body of the loop in the `evaluate` handler: the guards
`continue` on a filename that does not end in `.pdf` (case-insensitively),
on empty byte content, and on empty or shorter-than-50-character
extracted text; otherwise the entry dictionary is built. -/
def processFile (f : FileInput) : Option Entry :=
  if ¬ pyEndsWith (pyLower f.filename) ".pdf" then none
  else if f.content = [] then none
  else if f.extracted = "" ∨ f.extracted.length < 50 then none
  else some (mkEntry f)

/-- One iteration of the loop in the `evaluate` handler: a skipped file
changes nothing, and for an accepted file the entry dictionary is placed
in a fresh heap cell whose reference is appended to both the per-request
accumulator and the global `rankings` list (`results.append(entry)` and
`rankings.append(entry)` append the same object). -/
def stepFile (s : ServerState) (acc : List Ref) (f : FileInput) :
    ServerState × List Ref :=
  match processFile f with
  | none => (s, acc)
  | some e =>
    ({ heap := s.heap ++ [e], rankings := s.rankings ++ [s.heap.length] },
     acc ++ [s.heap.length])

/-- The sequential loop over the uploaded files. -/
def processFiles : ServerState → List Ref → List FileInput → ServerState × List Ref
  | s, acc, [] => (s, acc)
  | s, acc, f :: fs => processFiles (stepFile s acc f).1 (stepFile s acc f).2 fs

/-- The data handed to the template by the `evaluate` handler: the
per-request result references, the global leaderboard references, and the
optional error string. -/
structure EvaluatePage where
  results : List Ref
  rankings : List Ref
  error : Option String
deriving Repr, DecidableEq

/-- The `POST /evaluate` handler: processes the files sequentially; if no
file produced a result it renders the unchanged leaderboard with the
error string `"No valid PDFs were processed."` and performs no sort;
otherwise it sorts and re-ranks the global leaderboard and renders the
results together with it. -/
def evaluateOp (jd : String) (files : List FileInput) (s : ServerState) :
    ServerState × EvaluatePage :=
  let _ := jd
  if (processFiles s [] files).2 = [] then
    ((processFiles s [] files).1,
     { results := [], rankings := (processFiles s [] files).1.rankings,
       error := some "No valid PDFs were processed." })
  else
    (sortAndRank (processFiles s [] files).1,
     { results := (processFiles s [] files).2,
       rankings := (sortAndRank (processFiles s [] files).1).rankings,
       error := none })

/-- States the running server can be in: the initial empty state, and the
successor of a reachable state under any of the three request handlers. -/
inductive Reachable : ServerState → Prop where
  | init : Reachable initialState
  | index {s} : Reachable s → Reachable (indexOp s).1
  | evaluate {s} (jd : String) (files : List FileInput) :
      Reachable s → Reachable (evaluateOp jd files s).1
  | clear {s} : Reachable s → Reachable (clearOp s)

/-- The ranking invariant: every entry's stored rank equals its 1-based
position in the stable descending sort of the leaderboard by score. -/
def RankedCorrectly (s : ServerState) : Prop :=
  ∀ j r, (sortByKey (scoreAt s.heap) s.rankings)[j]? = some r →
    rankAt s.heap r = some (j + 1)

/-! Concrete demonstration data, used to instantiate the theorems below at
closed inputs. -/

/-- A demonstration entry with score 70. -/
def entryA : Entry :=
  { id := "aaaa1111", filename := "alice.pdf", score := 70,
    suggestion := "Add keywords", justification := "Partial match",
    edits := ["Add metrics"], rank := none }

/-- A demonstration entry with score 90. -/
def entryB : Entry :=
  { id := "bbbb2222", filename := "bob.pdf", score := 90,
    suggestion := "Good fit", justification := "Strong match",
    edits := [], rank := none }

/-- A demonstration server state with two entries in insertion order. -/
def demoState : ServerState := { heap := [entryA, entryB], rankings := [0, 1] }

/-- A demonstration entry with the lower score 1. -/
def entryLow : Entry :=
  { id := "lll1", filename := "low.pdf", score := 1, suggestion := "s",
    justification := "j", edits := [], rank := none }

/-- A demonstration entry with the higher score 2. -/
def entryHigh : Entry :=
  { id := "hhh2", filename := "high.pdf", score := 2, suggestion := "s",
    justification := "j", edits := [], rank := none }

/-- A state whose stored list order (low before high) disagrees with the
descending score order. -/
def crossedState : ServerState :=
  { heap := [entryLow, entryHigh], rankings := [0, 1] }

/-- A sample extracted text of length at least 50. -/
def sampleText : String :=
  "Experienced Python developer with background in PyTorch."

/-- An upload with a non-PDF extension, otherwise unobjectionable. -/
def docxFile : FileInput :=
  { filename := "notes.docx", content := [1], extracted := sampleText,
    ai := AIOutcome.apiFailure, freshId := "aaaa0000" }

/-- A valid PDF upload (note the upper-case extension) whose AI call
fails. -/
def goodFile : FileInput :=
  { filename := "Resume_Final.PDF", content := [37, 80, 68, 70],
    extracted := sampleText, ai := AIOutcome.apiFailure,
    freshId := "bbbb1111" }

/-! Lemmas about the stable descending sort. -/

theorem insertByKey_perm (k : α → Int) (a : α) (l : List α) :
    (insertByKey k a l).Perm (a :: l) := by
  induction l with
  | nil => simp [insertByKey]
  | cons b t ih =>
    by_cases h : k b ≤ k a
    · simp [insertByKey, h]
    · rw [insertByKey, if_neg h]
      exact (ih.cons b).trans (List.Perm.swap a b t)

theorem sortByKey_perm (k : α → Int) (l : List α) : (sortByKey k l).Perm l := by
  induction l with
  | nil => simp [sortByKey]
  | cons a t ih => exact (insertByKey_perm k a _).trans (ih.cons a)

theorem mem_sortByKey {k : α → Int} {l : List α} {a : α} :
    a ∈ sortByKey k l ↔ a ∈ l :=
  (sortByKey_perm k l).mem_iff

theorem length_sortByKey (k : α → Int) (l : List α) :
    (sortByKey k l).length = l.length :=
  (sortByKey_perm k l).length_eq

theorem nodup_sortByKey {k : α → Int} {l : List α} (h : l.Nodup) :
    (sortByKey k l).Nodup :=
  ((sortByKey_perm k l).nodup_iff).mpr h

theorem sorted_insertByKey (k : α → Int) (a : α) {l : List α}
    (hl : l.Sorted fun x y => k y ≤ k x) :
    (insertByKey k a l).Sorted fun x y => k y ≤ k x := by
  induction l with
  | nil => simp [insertByKey]
  | cons b t ih =>
    rw [List.sorted_cons] at hl
    by_cases h : k b ≤ k a
    · rw [insertByKey, if_pos h, List.sorted_cons]
      refine ⟨?_, List.sorted_cons.mpr hl⟩
      intro c hc
      rcases List.mem_cons.mp hc with rfl | hc
      · exact h
      · exact le_trans (hl.1 c hc) h
    · rw [insertByKey, if_neg h, List.sorted_cons]
      refine ⟨?_, ih hl.2⟩
      intro c hc
      rcases List.mem_cons.mp ((insertByKey_perm k a t).mem_iff.mp hc) with rfl | hc
      · exact le_of_not_le h
      · exact hl.1 c hc

theorem sorted_sortByKey (k : α → Int) (l : List α) :
    (sortByKey k l).Sorted fun x y => k y ≤ k x := by
  induction l with
  | nil => simp [sortByKey]
  | cons a t ih => exact sorted_insertByKey k a ih

theorem filter_insertByKey (k : α → Int) (c : Int) (a : α) (l : List α) :
    (insertByKey k a l).filter (fun b => decide (k b = c)) =
      if k a = c then a :: l.filter (fun b => decide (k b = c))
      else l.filter (fun b => decide (k b = c)) := by
  induction l with
  | nil => by_cases h : k a = c <;> simp [insertByKey, h]
  | cons b t ih =>
    by_cases h : k b ≤ k a
    · rw [insertByKey, if_pos h]
      by_cases ha : k a = c <;> simp [List.filter_cons, ha]
    · rw [insertByKey, if_neg h, List.filter_cons, List.filter_cons, ih]
      by_cases ha : k a = c
      · have hb : ¬ k b = c := by
          intro hb
          exact h (le_of_eq (hb.trans ha.symm))
        simp [ha, hb]
      · by_cases hb : k b = c <;> simp [ha, hb]

theorem sortByKey_filter (k : α → Int) (c : Int) (l : List α) :
    (sortByKey k l).filter (fun b => decide (k b = c)) =
      l.filter (fun b => decide (k b = c)) := by
  induction l with
  | nil => rfl
  | cons a t ih =>
    rw [sortByKey, filter_insertByKey, ih, List.filter_cons]
    by_cases h : k a = c <;> simp [h]

theorem insertByKey_congr {k₁ k₂ : α → Int} (a : α) {l : List α}
    (ha : k₁ a = k₂ a) (hl : ∀ b ∈ l, k₁ b = k₂ b) :
    insertByKey k₁ a l = insertByKey k₂ a l := by
  induction l with
  | nil => rfl
  | cons b t ih =>
    have hb : k₁ b = k₂ b := hl b (by simp)
    rw [insertByKey, insertByKey, ha, hb, ih fun x hx => hl x (by simp [hx])]

theorem sortByKey_congr {k₁ k₂ : α → Int} {l : List α}
    (h : ∀ a ∈ l, k₁ a = k₂ a) : sortByKey k₁ l = sortByKey k₂ l := by
  induction l with
  | nil => rfl
  | cons a t ih =>
    rw [sortByKey, sortByKey, ih fun x hx => h x (by simp [hx]),
      insertByKey_congr a (h a (by simp))]
    intro b hb
    exact h b (by simp [mem_sortByKey.mp hb])

theorem sortByKey_eq_of_sorted {k : α → Int} {l : List α}
    (h : l.Sorted fun x y => k y ≤ k x) : sortByKey k l = l := by
  induction l with
  | nil => rfl
  | cons a t ih =>
    rw [List.sorted_cons] at h
    rw [sortByKey, ih h.2]
    cases t with
    | nil => rfl
    | cons b t' => rw [insertByKey, if_pos (h.1 b (by simp))]

theorem sortByKey_idem (k : α → Int) (l : List α) :
    sortByKey k (sortByKey k l) = sortByKey k l :=
  sortByKey_eq_of_sorted (sorted_sortByKey k l)

/-! Lemmas about the heap and the in-place rank writes. -/

theorem length_setRank (h : Heap) (r : Ref) (n : Nat) :
    (setRank h r n).length = h.length := by
  simp [setRank]

theorem length_assignRanks : ∀ (rs : List Ref) (h : Heap) (i : Nat),
    (assignRanks h rs i).length = h.length
  | [], _, _ => rfl
  | r :: rs, h, i => by
    rw [assignRanks, length_assignRanks rs, length_setRank]

theorem entryAt_setRank_ne (h : Heap) {r' r : Ref} (n : Nat) (hne : r' ≠ r) :
    entryAt (setRank h r' n) r = entryAt h r := by
  unfold entryAt setRank
  rw [List.getD_eq_getElem?_getD, List.getD_eq_getElem?_getD,
    List.getElem?_set_ne hne]

theorem entryAt_setRank_self (h : Heap) {r : Ref} (n : Nat) (hr : r < h.length) :
    entryAt (setRank h r n) r = { entryAt h r with rank := some n } := by
  unfold entryAt setRank
  rw [List.getD_eq_getElem?_getD, List.getElem?_set_self hr]
  rfl

theorem heap_set_self : ∀ (h : Heap) (r : Ref), h.set r (entryAt h r) = h
  | [], _ => rfl
  | _ :: _, 0 => rfl
  | e :: t, r + 1 => congrArg (e :: ·) (heap_set_self t r)

theorem entryAt_setRank_cases (h : Heap) (r' : Ref) (n : Nat) (r : Ref) :
    entryAt (setRank h r' n) r = entryAt h r ∨
      entryAt (setRank h r' n) r = { entryAt h r with rank := some n } := by
  by_cases hne : r' = r
  · subst hne
    by_cases hr : r' < h.length
    · exact Or.inr (entryAt_setRank_self h n hr)
    · left
      unfold setRank
      rw [List.set_eq_of_length_le (le_of_not_lt hr)]
  · exact Or.inl (entryAt_setRank_ne h n hne)

theorem entryAt_assignRanks_cases :
    ∀ (rs : List Ref) (h : Heap) (i : Nat) (r : Ref),
    entryAt (assignRanks h rs i) r = entryAt h r ∨
      ∃ n, entryAt (assignRanks h rs i) r = { entryAt h r with rank := some n }
  | [], _, _, _ => Or.inl rfl
  | r' :: rs, h, i, r => by
    rw [assignRanks]
    rcases entryAt_assignRanks_cases rs (setRank h r' i) (i + 1) r with hc | ⟨n, hc⟩ <;>
      rcases entryAt_setRank_cases h r' i r with hc' | hc' <;>
      rw [hc, hc']
    · exact Or.inl rfl
    · exact Or.inr ⟨i, rfl⟩
    · exact Or.inr ⟨n, rfl⟩
    · exact Or.inr ⟨n, rfl⟩

theorem scoreAt_assignRanks (rs : List Ref) (h : Heap) (i : Nat) (r : Ref) :
    scoreAt (assignRanks h rs i) r = scoreAt h r := by
  rcases entryAt_assignRanks_cases rs h i r with hc | ⟨n, hc⟩ <;>
    simp [scoreAt, hc]

theorem entryAt_assignRanks_not_mem :
    ∀ (rs : List Ref) (h : Heap) (i : Nat) (r : Ref), r ∉ rs →
      entryAt (assignRanks h rs i) r = entryAt h r
  | [], _, _, _, _ => rfl
  | r' :: rs, h, i, r, hr => by
    rw [assignRanks,
      entryAt_assignRanks_not_mem rs _ _ _ fun hm => hr (List.mem_cons_of_mem _ hm),
      entryAt_setRank_ne h _ fun he => hr (by simp [← he])]

theorem entryAt_assignRanks_getElem :
    ∀ (rs : List Ref) (h : Heap) (i : Nat), rs.Nodup →
      (∀ r ∈ rs, r < h.length) →
      ∀ (j : Nat) (r : Ref), rs[j]? = some r →
        entryAt (assignRanks h rs i) r =
          { entryAt h r with rank := some (i + j) }
  | [], _, _, _, _, j, r, hjr => by simp at hjr
  | r' :: rs, h, i, hnd, hv, 0, r, hjr => by
    have hr : r' = r := by simpa using hjr
    subst hr
    rw [assignRanks,
      entryAt_assignRanks_not_mem rs _ _ _ (List.nodup_cons.mp hnd).1,
      entryAt_setRank_self h i (hv r' (by simp)), Nat.add_zero]
  | r' :: rs, h, i, hnd, hv, j + 1, r, hjr => by
    have hjr' : rs[j]? = some r := by simpa using hjr
    have hmem : r ∈ rs := List.getElem?_mem hjr'
    have hne : r' ≠ r := fun he => (List.nodup_cons.mp hnd).1 (he ▸ hmem)
    rw [assignRanks,
      entryAt_assignRanks_getElem rs (setRank h r' i) (i + 1)
        (List.nodup_cons.mp hnd).2
        (fun x hx => by
          rw [length_setRank]; exact hv x (List.mem_cons_of_mem _ hx))
        j r hjr',
      entryAt_setRank_ne h i hne]
    have harith : i + 1 + j = i + (j + 1) := by omega
    rw [harith]

theorem map_rank_assignRanks :
    ∀ (rs : List Ref) (h : Heap) (i : Nat), rs.Nodup →
      (∀ r ∈ rs, r < h.length) →
      rs.map (fun r => rankAt (assignRanks h rs i) r) =
        (List.range' i rs.length).map some
  | [], _, _, _, _ => rfl
  | r' :: rs, h, i, hnd, hv => by
    rw [assignRanks, List.map_cons, List.length_cons, List.range'_succ,
      List.map_cons]
    have hhead :
        rankAt (assignRanks (setRank h r' i) rs (i + 1)) r' = some i := by
      rw [rankAt,
        entryAt_assignRanks_not_mem rs _ _ _ (List.nodup_cons.mp hnd).1,
        entryAt_setRank_self h i (hv r' (by simp))]
    rw [hhead,
      map_rank_assignRanks rs (setRank h r' i) (i + 1)
        (List.nodup_cons.mp hnd).2
        (fun x hx => by
          rw [length_setRank]; exact hv x (List.mem_cons_of_mem _ hx))]

theorem assignRanks_of_ranked :
    ∀ (rs : List Ref) (h : Heap) (i : Nat),
      (∀ j r, rs[j]? = some r → (entryAt h r).rank = some (i + j)) →
      assignRanks h rs i = h
  | [], _, _, _ => rfl
  | r' :: rs, h, i, hr => by
    have hr0 : (entryAt h r').rank = some i := by
      have := hr 0 r' (by simp)
      simpa using this
    have hset : setRank h r' i = h := by
      unfold setRank
      rw [← hr0]
      exact heap_set_self h r'
    rw [assignRanks, hset]
    exact assignRanks_of_ranked rs h (i + 1) fun j r hjr => by
      have := hr (j + 1) r (by simpa using hjr)
      have harith : i + (j + 1) = i + 1 + j := by omega
      rw [← harith]
      exact this

/-! Lemmas about `sortAndRank` and `indexOp`. -/

theorem sortByKey_scoreAt_assignRanks (h : Heap) (rs : List Ref) (i : Nat)
    (l : List Ref) :
    sortByKey (scoreAt (assignRanks h rs i)) l = sortByKey (scoreAt h) l :=
  sortByKey_congr fun r _ => scoreAt_assignRanks rs h i r

theorem sortAndRank_rankings (s : ServerState) :
    (sortAndRank s).rankings = sortByKey (scoreAt s.heap) s.rankings := rfl

theorem sortAndRank_heap (s : ServerState) :
    (sortAndRank s).heap =
      assignRanks s.heap (sortByKey (scoreAt s.heap) s.rankings) 1 := rfl

theorem sorted_valid {s : ServerState} (hv : ValidState s) :
    ∀ r ∈ sortByKey (scoreAt s.heap) s.rankings, r < s.heap.length :=
  fun r hr => hv r (mem_sortByKey.mp hr)

theorem rankAt_sortAndRank (s : ServerState) (hv : ValidState s)
    (hnd : s.rankings.Nodup) (j : Nat) (r : Ref)
    (hjr : (sortByKey (scoreAt s.heap) s.rankings)[j]? = some r) :
    rankAt (sortAndRank s).heap r = some (j + 1) := by
  rw [sortAndRank_heap, rankAt,
    entryAt_assignRanks_getElem (sortByKey (scoreAt s.heap) s.rankings)
      s.heap 1 (nodup_sortByKey hnd) (sorted_valid hv) j r hjr]
  rw [Nat.add_comm 1 j]

theorem scoreAt_sortAndRank (s : ServerState) (r : Ref) :
    scoreAt (sortAndRank s).heap r = scoreAt s.heap r :=
  scoreAt_assignRanks _ _ _ _

theorem rankedCorrectly_sortAndRank (s : ServerState) (hv : ValidState s)
    (hnd : s.rankings.Nodup) : RankedCorrectly (sortAndRank s) := by
  intro j r hjr
  rw [sortAndRank_rankings, sortAndRank_heap, sortByKey_scoreAt_assignRanks,
    sortByKey_idem] at hjr
  exact rankAt_sortAndRank s hv hnd j r hjr

theorem validState_sortAndRank {s : ServerState} (hv : ValidState s) :
    ValidState (sortAndRank s) := by
  intro r hr
  rw [sortAndRank_rankings] at hr
  rw [sortAndRank_heap, length_assignRanks]
  exact hv r (mem_sortByKey.mp hr)

theorem nodup_sortAndRank {s : ServerState} (hnd : s.rankings.Nodup) :
    (sortAndRank s).rankings.Nodup := by
  rw [sortAndRank_rankings]
  exact nodup_sortByKey hnd

theorem indexOp_heap (s : ServerState) :
    (indexOp s).1.heap =
      assignRanks s.heap (sortByKey (scoreAt s.heap) s.rankings) 1 := rfl

theorem indexOp_rankings (s : ServerState) :
    (indexOp s).1.rankings = s.rankings := rfl

theorem indexOp_view (s : ServerState) :
    (indexOp s).2 = sortByKey (scoreAt s.heap) s.rankings := rfl

theorem rankedCorrectly_indexOp (s : ServerState) (hv : ValidState s)
    (hnd : s.rankings.Nodup) : RankedCorrectly (indexOp s).1 := by
  intro j r hjr
  rw [indexOp_rankings, indexOp_heap, sortByKey_scoreAt_assignRanks] at hjr
  have := rankAt_sortAndRank s hv hnd j r hjr
  rw [sortAndRank_heap] at this
  rw [indexOp_heap]
  exact this

/-! Lemmas about the file-processing loop. -/

theorem stepFile_none {f : FileInput} (hf : processFile f = none)
    (s : ServerState) (acc : List Ref) : stepFile s acc f = (s, acc) := by
  unfold stepFile
  rw [hf]

theorem stepFile_some {f : FileInput} {e : Entry} (hf : processFile f = some e)
    (s : ServerState) (acc : List Ref) :
    stepFile s acc f =
      ({ heap := s.heap ++ [e], rankings := s.rankings ++ [s.heap.length] },
       acc ++ [s.heap.length]) := by
  unfold stepFile
  rw [hf]

theorem processFiles_nil (s : ServerState) (acc : List Ref) :
    processFiles s acc [] = (s, acc) := rfl

theorem processFiles_cons (s : ServerState) (acc : List Ref) (f : FileInput)
    (fs : List FileInput) :
    processFiles s acc (f :: fs) =
      processFiles (stepFile s acc f).1 (stepFile s acc f).2 fs := by
  rw [processFiles]

theorem processFiles_all_skip :
    ∀ (fs : List FileInput) (s : ServerState) (acc : List Ref),
      (∀ f ∈ fs, processFile f = none) → processFiles s acc fs = (s, acc)
  | [], _, _, _ => rfl
  | f :: fs, s, acc, hall => by
    rw [processFiles_cons, stepFile_none (hall f (by simp))]
    exact processFiles_all_skip fs s acc fun g hg =>
      hall g (List.mem_cons_of_mem _ hg)

theorem processFiles_results_extend :
    ∀ (fs : List FileInput) (s : ServerState) (acc : List Ref),
      ∃ ext, (processFiles s acc fs).2 = acc ++ ext ∧
        (ext = [] → processFiles s acc fs = (s, acc))
  | [], s, acc => ⟨[], by rw [processFiles_nil, List.append_nil], fun _ => rfl⟩
  | f :: fs, s, acc => by
    rw [processFiles_cons]
    cases hf : processFile f with
    | none =>
      rw [stepFile_none hf]
      exact processFiles_results_extend fs s acc
    | some e =>
      rw [stepFile_some hf]
      obtain ⟨ext, hext, -⟩ :=
        processFiles_results_extend fs
          { heap := s.heap ++ [e], rankings := s.rankings ++ [s.heap.length] }
          (acc ++ [s.heap.length])
      exact ⟨s.heap.length :: ext, by simpa using hext,
        fun hc => absurd hc (by simp)⟩

theorem processFiles_of_results_nil (fs : List FileInput) (s : ServerState)
    (h : (processFiles s [] fs).2 = []) : processFiles s [] fs = (s, []) := by
  obtain ⟨ext, hext, hnil⟩ := processFiles_results_extend fs s []
  rw [h] at hext
  exact hnil (by simpa using hext.symm)

theorem processFiles_valid :
    ∀ (fs : List FileInput) (s : ServerState) (acc : List Ref),
      ValidState s → ValidState (processFiles s acc fs).1
  | [], _, _, hv => hv
  | f :: fs, s, acc, hv => by
    rw [processFiles_cons]
    cases hf : processFile f with
    | none =>
      rw [stepFile_none hf]
      exact processFiles_valid fs s acc hv
    | some e =>
      rw [stepFile_some hf]
      refine processFiles_valid fs _ _ ?_
      intro r hr
      rcases List.mem_append.mp hr with hr | hr
      · simpa using Nat.lt_succ_of_lt (hv r hr)
      · simp at hr
        simp [hr]

theorem processFiles_nodup :
    ∀ (fs : List FileInput) (s : ServerState) (acc : List Ref),
      ValidState s → s.rankings.Nodup → (processFiles s acc fs).1.rankings.Nodup
  | [], _, _, _, hnd => hnd
  | f :: fs, s, acc, hv, hnd => by
    rw [processFiles_cons]
    cases hf : processFile f with
    | none =>
      rw [stepFile_none hf]
      exact processFiles_nodup fs s acc hv hnd
    | some e =>
      rw [stepFile_some hf]
      refine processFiles_nodup fs _ _ ?_ ?_
      · intro r hr
        rcases List.mem_append.mp hr with hr | hr
        · simpa using Nat.lt_succ_of_lt (hv r hr)
        · simp at hr
          simp [hr]
      · refine List.Nodup.append hnd (by simp) ?_
        intro r hr hr'
        rw [List.mem_singleton] at hr'
        exact absurd hr' (Nat.ne_of_lt (hv r hr))

theorem processFiles_results_mem :
    ∀ (fs : List FileInput) (s : ServerState) (acc : List Ref),
      (∀ r ∈ acc, r ∈ s.rankings) →
      ∀ r ∈ (processFiles s acc fs).2, r ∈ (processFiles s acc fs).1.rankings
  | [], _, _, hacc => hacc
  | f :: fs, s, acc, hacc => by
    rw [processFiles_cons]
    cases hf : processFile f with
    | none =>
      rw [stepFile_none hf]
      exact processFiles_results_mem fs s acc hacc
    | some e =>
      rw [stepFile_some hf]
      refine processFiles_results_mem fs _ _ ?_
      intro r hr
      rcases List.mem_append.mp hr with hr | hr
      · exact List.mem_append.mpr (Or.inl (hacc r hr))
      · exact List.mem_append.mpr (Or.inr hr)

/-! Lemmas about the `evaluate` handler and reachable states. -/

theorem evaluateOp_of_results_nil (jd : String) (files : List FileInput)
    (s : ServerState) (h : (processFiles s [] files).2 = []) :
    evaluateOp jd files s =
      (s, { results := [], rankings := s.rankings,
            error := some "No valid PDFs were processed." }) := by
  unfold evaluateOp
  rw [processFiles_of_results_nil files s h]
  rfl

theorem evaluateOp_of_results_ne (jd : String) (files : List FileInput)
    (s : ServerState) (h : (processFiles s [] files).2 ≠ []) :
    evaluateOp jd files s =
      (sortAndRank (processFiles s [] files).1,
       { results := (processFiles s [] files).2,
         rankings := (sortAndRank (processFiles s [] files).1).rankings,
         error := none }) := by
  unfold evaluateOp
  rw [if_neg h]

theorem rankedCorrectly_empty (s : ServerState) (h : s.rankings = []) :
    RankedCorrectly s := by
  intro j r hjr
  rw [h] at hjr
  simp [sortByKey] at hjr

theorem reachable_invariant {s : ServerState} (hs : Reachable s) :
    ValidState s ∧ s.rankings.Nodup ∧ RankedCorrectly s := by
  induction hs with
  | init =>
    refine ⟨?_, ?_, rankedCorrectly_empty _ rfl⟩
    · intro r hr
      simp [initialState] at hr
    · simp [initialState]
  | index hs ih =>
    obtain ⟨hv, hnd, -⟩ := ih
    refine ⟨?_, ?_, rankedCorrectly_indexOp _ hv hnd⟩
    · intro r hr
      rw [indexOp_rankings] at hr
      rw [indexOp_heap, length_assignRanks]
      exact hv r hr
    · rw [indexOp_rankings]
      exact hnd
  | evaluate jd files hs ih =>
    obtain ⟨hv, hnd, hrk⟩ := ih
    rename_i s'
    by_cases h : (processFiles s' [] files).2 = []
    · rw [evaluateOp_of_results_nil jd files s' h]
      exact ⟨hv, hnd, hrk⟩
    · rw [evaluateOp_of_results_ne jd files s' h]
      have hv1 := processFiles_valid files s' [] hv
      have hnd1 := processFiles_nodup files s' [] hv hnd
      exact ⟨validState_sortAndRank hv1, nodup_sortAndRank hnd1,
        rankedCorrectly_sortAndRank _ hv1 hnd1⟩
  | clear hs ih =>
    refine ⟨?_, ?_, rankedCorrectly_empty _ rfl⟩
    · intro r hr
      simp [clearOp] at hr
    · simp [clearOp]

/-! The claims. -/

/-- C2: for every job description and résumé text, `evaluate_resume` is a
total function of the AI-call outcome (the caller never observes an
exception): its score always lies in `[0, 100]`; an exception inside the
call and an out-of-range score both give the fixed fallback result; and
any answer is either the fallback or the validated parsed response; the
fallback is exactly score 0, the two fixed strings, and no edits. -/
theorem evaluate_resume_total_and_clamped (jd resume : String) (o : AIOutcome) :
    (0 ≤ (evaluate_resume jd resume o).score ∧
      (evaluate_resume jd resume o).score ≤ 100) ∧
    evaluate_resume jd resume AIOutcome.apiFailure = fallbackResponse ∧
    (∀ (sc : Int) (sg ju : String) (ed : List String), (sc < 0 ∨ 100 < sc) →
      evaluate_resume jd resume (AIOutcome.parsed sc sg ju ed) =
        fallbackResponse) ∧
    (evaluate_resume jd resume o = fallbackResponse ∨
      ∃ (sc : Int) (sg ju : String) (ed : List String),
        o = AIOutcome.parsed sc sg ju ed ∧ 0 ≤ sc ∧ sc ≤ 100 ∧
        evaluate_resume jd resume o =
          { score := sc, suggestion := sg, justification := ju,
            edits := ed }) ∧
    fallbackResponse =
      { score := 0, suggestion := "AI Service Unavailable",
        justification := "Could not process resume.", edits := [] } := by
  refine ⟨?_, rfl, ?_, ?_, rfl⟩
  · cases o with
    | apiFailure =>
      constructor <;> simp [evaluate_resume, call_ai, fallbackResponse]
    | parsed sc sg ju ed =>
      by_cases h : 0 ≤ sc ∧ sc ≤ 100
      · simp [evaluate_resume, call_ai, validateResponse, h]
      · simp [evaluate_resume, call_ai, validateResponse, h, fallbackResponse]
  · intro sc sg ju ed h
    have h' : ¬ (0 ≤ sc ∧ sc ≤ 100) := by omega
    simp [evaluate_resume, call_ai, validateResponse, h']
  · cases o with
    | apiFailure => exact Or.inl rfl
    | parsed sc sg ju ed =>
      by_cases h : 0 ≤ sc ∧ sc ≤ 100
      · exact Or.inr ⟨sc, sg, ju, ed, rfl, h.1, h.2,
          by simp [evaluate_resume, call_ai, validateResponse, h]⟩
      · exact Or.inl (by simp [evaluate_resume, call_ai, validateResponse, h])

/-- Closed instance of C2: an out-of-range AI score (150) yields the
fallback result, and the fallback score is within bounds. -/
theorem evaluate_resume_total_and_clamped_witness :
    (0 ≤ (evaluate_resume "jd" "resume" AIOutcome.apiFailure).score ∧
      (evaluate_resume "jd" "resume" AIOutcome.apiFailure).score ≤ 100) ∧
    evaluate_resume "jd" "resume" (AIOutcome.parsed 150 "sg" "ju" []) =
      fallbackResponse :=
  ⟨(evaluate_resume_total_and_clamped "jd" "resume" AIOutcome.apiFailure).1,
   (evaluate_resume_total_and_clamped "jd" "resume"
      AIOutcome.apiFailure).2.2.1 150 "sg" "ju" [] (Or.inr (by decide))⟩

/-- C3: if every uploaded file of a `POST /evaluate` request is skipped,
the response is the explicit `"No valid PDFs were processed."` indicator
with an empty result list, and the server state — heap and leaderboard
alike — is exactly the state before the request: nothing is appended and
no re-sort or re-rank happens. -/
theorem evaluate_all_skipped_unchanged (jd : String) (files : List FileInput)
    (s : ServerState) (hall : ∀ f ∈ files, processFile f = none) :
    evaluateOp jd files s =
      (s, { results := [], rankings := s.rankings,
            error := some "No valid PDFs were processed." }) := by
  apply evaluateOp_of_results_nil
  rw [processFiles_all_skip files s [] hall]

/-- Closed instance of C3: a single `.docx` upload leaves the
demonstration state untouched and produces the error indicator. -/
theorem evaluate_all_skipped_unchanged_witness :
    (∀ f ∈ [docxFile], processFile f = none) ∧
    evaluateOp "Python required" [docxFile] demoState =
      (demoState,
       { results := [], rankings := demoState.rankings,
         error := some "No valid PDFs were processed." }) :=
  ⟨by decide,
   evaluate_all_skipped_unchanged "Python required" [docxFile] demoState
     (by decide)⟩

/-- C5: an uploaded file whose name does not end in `.pdf`
case-insensitively, or whose byte content is empty, or whose extracted
text is empty or shorter than 50 characters, produces no entry
(`processFile` returns `none`) and its processing step leaves state and
results untouched while the loop continues with the remaining files. -/
theorem skipped_file_no_entry (f : FileInput)
    (hskip : pyEndsWith (pyLower f.filename) ".pdf" = false ∨
      f.content = [] ∨ f.extracted = "" ∨ f.extracted.length < 50)
    (s : ServerState) (acc : List Ref) (fs : List FileInput) :
    processFile f = none ∧
    processFiles s acc (f :: fs) = processFiles s acc fs := by
  have hf : processFile f = none := by
    unfold processFile
    by_cases h1 : pyEndsWith (pyLower f.filename) ".pdf" = true
    · rw [if_neg (not_not_intro h1)]
      by_cases h2 : f.content = []
      · rw [if_pos h2]
      · rw [if_neg h2]
        by_cases h3 : f.extracted = "" ∨ f.extracted.length < 50
        · rw [if_pos h3]
        · exfalso
          rcases hskip with h | h | h | h
          · rw [h1] at h
            exact Bool.noConfusion h
          · exact h2 h
          · exact h3 (Or.inl h)
          · exact h3 (Or.inr h)
    · rw [if_pos h1]
  refine ⟨hf, ?_⟩
  rw [processFiles_cons, stepFile_none hf]

/-- Closed instance of C5: the `.docx` upload is skipped and the loop
proceeds as if it were absent. -/
theorem skipped_file_no_entry_witness :
    pyEndsWith (pyLower docxFile.filename) ".pdf" = false ∧
    processFile docxFile = none ∧
    processFiles demoState [] [docxFile, goodFile] =
      processFiles demoState [] [goodFile] :=
  ⟨by decide,
   (skipped_file_no_entry docxFile (Or.inl (by decide)) demoState []
      [goodFile]).1,
   (skipped_file_no_entry docxFile (Or.inl (by decide)) demoState []
      [goodFile]).2⟩

/-- C6: a file that passes the extension, content and minimum-length
checks but whose AI call raises still produces exactly one entry — the
fallback evaluation with score 0, the fixed suggestion and justification,
and no edits — and that entry's fresh reference is appended to both the
per-request result list and the global leaderboard; the loop then
continues: the file counts as processed, not skipped. -/
theorem ai_failure_still_processed (f : FileInput)
    (hext : pyEndsWith (pyLower f.filename) ".pdf" = true)
    (hcontent : f.content ≠ []) (hne : f.extracted ≠ "")
    (hlen : ¬ f.extracted.length < 50) (hai : f.ai = AIOutcome.apiFailure)
    (s : ServerState) (acc : List Ref) (fs : List FileInput) :
    processFile f = some
      { id := f.freshId, filename := f.filename, score := 0,
        suggestion := "AI Service Unavailable",
        justification := "Could not process resume.", edits := [],
        rank := none } ∧
    processFiles s acc (f :: fs) =
      processFiles
        { heap := s.heap ++
            [{ id := f.freshId, filename := f.filename, score := 0,
               suggestion := "AI Service Unavailable",
               justification := "Could not process resume.", edits := [],
               rank := none }],
          rankings := s.rankings ++ [s.heap.length] }
        (acc ++ [s.heap.length]) fs := by
  have hf : processFile f = some
      { id := f.freshId, filename := f.filename, score := 0,
        suggestion := "AI Service Unavailable",
        justification := "Could not process resume.", edits := [],
        rank := none } := by
    unfold processFile
    rw [if_neg (not_not_intro hext), if_neg hcontent,
      if_neg fun hor => hor.elim hne hlen]
    unfold mkEntry
    rw [hai]
    rfl
  refine ⟨hf, ?_⟩
  rw [processFiles_cons, stepFile_some hf]

/-- Closed instance of C6: the valid upload with a failing AI call gets a
score-0 fallback entry appended to both lists. -/
theorem ai_failure_still_processed_witness :
    pyEndsWith (pyLower goodFile.filename) ".pdf" = true ∧
    ¬ goodFile.extracted.length < 50 ∧
    processFile goodFile = some
      { id := goodFile.freshId, filename := goodFile.filename, score := 0,
        suggestion := "AI Service Unavailable",
        justification := "Could not process resume.", edits := [],
        rank := none } :=
  ⟨by decide, by decide,
   (ai_failure_still_processed goodFile (by decide) (by decide) (by decide)
      (by decide) rfl demoState [] []).1⟩

/-- C1: after the sort-and-rank step of a successful `POST /evaluate`,
the rank fields along the leaderboard are exactly `1, 2, ..., N`; scores
are untouched by the step; the leaderboard order is descending by score
(so ranks match descending score order); and for every score value the
sub-sequence of entries carrying it is unchanged — the stable sort keeps
earlier-inserted entries of equal score at smaller ranks. -/
theorem sortAndRank_contiguous_sorted_stable (s : ServerState)
    (hv : ValidState s) (hnd : s.rankings.Nodup) :
    ((sortAndRank s).rankings.map (fun r => rankAt (sortAndRank s).heap r) =
      (List.range' 1 s.rankings.length).map some) ∧
    (∀ r, scoreAt (sortAndRank s).heap r = scoreAt s.heap r) ∧
    ((sortAndRank s).rankings.map (fun r => scoreAt s.heap r)).Sorted
      (· ≥ ·) ∧
    (∀ c : Int,
      (sortAndRank s).rankings.filter (fun r => decide (scoreAt s.heap r = c)) =
        s.rankings.filter (fun r => decide (scoreAt s.heap r = c))) := by
  refine ⟨?_, scoreAt_sortAndRank s, ?_, ?_⟩
  · rw [sortAndRank_rankings, sortAndRank_heap,
      map_rank_assignRanks _ s.heap 1 (nodup_sortByKey hnd) (sorted_valid hv),
      length_sortByKey]
  · rw [sortAndRank_rankings]
    exact List.pairwise_map.mpr (sorted_sortByKey (scoreAt s.heap) s.rankings)
  · intro c
    rw [sortAndRank_rankings]
    exact sortByKey_filter (scoreAt s.heap) c s.rankings

/-- Closed instance of C1: on the demonstration state the ranks come out
as the contiguous sequence `1, 2`. -/
theorem sortAndRank_contiguous_sorted_stable_witness :
    ValidState demoState ∧ demoState.rankings.Nodup ∧
    (sortAndRank demoState).rankings.map
        (fun r => rankAt (sortAndRank demoState).heap r) =
      (List.range' 1 demoState.rankings.length).map some :=
  ⟨by decide, by decide,
   (sortAndRank_contiguous_sorted_stable demoState (by decide) (by decide)).1⟩

/-- C4: on every state the running server can reach — the initial state
and the state left behind by any sequence of `GET /`, `POST /evaluate`
and `POST /clear` requests — every entry's rank field equals its 1-based
position under a stable descending sort of the leaderboard by score. -/
theorem rank_derived_on_reachable {s : ServerState} (hs : Reachable s) :
    RankedCorrectly s :=
  (reachable_invariant hs).2.2

/-- Closed instance of C4: the state after clearing, evaluating one valid
upload, and serving the index page is ranked correctly. -/
theorem rank_derived_on_reachable_witness :
    RankedCorrectly
      (indexOp (evaluateOp "Python" [goodFile] (clearOp initialState)).1).1 :=
  rank_derived_on_reachable
    (Reachable.index (Reachable.evaluate "Python" [goodFile]
      (Reachable.clear Reachable.init)))

/-- C7: the sort-and-rank step is idempotent — running it twice from any
valid state gives exactly the state (same leaderboard sequence, same heap
and hence same rank fields) of running it once. -/
theorem sortAndRank_idempotent (s : ServerState) (hv : ValidState s)
    (hnd : s.rankings.Nodup) :
    sortAndRank (sortAndRank s) = sortAndRank s := by
  have hsorted2 :
      sortByKey (scoreAt (sortAndRank s).heap) (sortAndRank s).rankings =
        (sortAndRank s).rankings := by
    rw [sortAndRank_heap, sortAndRank_rankings, sortByKey_scoreAt_assignRanks,
      sortByKey_idem]
  have hheap :
      assignRanks (sortAndRank s).heap (sortAndRank s).rankings 1 =
        (sortAndRank s).heap := by
    apply assignRanks_of_ranked
    intro j r hjr
    have hrk : rankAt (sortAndRank s).heap r = some (j + 1) := by
      apply rankAt_sortAndRank s hv hnd j r
      rw [← sortAndRank_rankings]
      exact hjr
    rw [rankAt] at hrk
    rw [Nat.add_comm 1 j]
    exact hrk
  have hdef : sortAndRank (sortAndRank s) =
      { heap := assignRanks (sortAndRank s).heap
          (sortByKey (scoreAt (sortAndRank s).heap) (sortAndRank s).rankings) 1,
        rankings :=
          sortByKey (scoreAt (sortAndRank s).heap) (sortAndRank s).rankings } :=
    rfl
  rw [hdef, hsorted2, hheap]

/-- Closed instance of C7: idempotence on the demonstration state. -/
theorem sortAndRank_idempotent_witness :
    ValidState demoState ∧ demoState.rankings.Nodup ∧
    sortAndRank (sortAndRank demoState) = sortAndRank demoState :=
  ⟨by decide, by decide, sortAndRank_idempotent demoState (by decide) (by decide)⟩

/-- C8: `POST /clear` empties the leaderboard whatever it held, and from
any state whose leaderboard is empty every read — the index page and its
rendered view, another clear, or an `evaluate` whose files are all
skipped — still sees an empty leaderboard, until some file is accepted
and appended. -/
theorem clear_then_reads_empty (s : ServerState) :
    (clearOp s).rankings = [] ∧
    (∀ s' : ServerState, s'.rankings = [] →
      (indexOp s').1.rankings = [] ∧ (indexOp s').2 = [] ∧
      (clearOp s').rankings = [] ∧
      (∀ (jd : String) (files : List FileInput),
        (∀ f ∈ files, processFile f = none) →
        (evaluateOp jd files s').1.rankings = [] ∧
        (evaluateOp jd files s').2.rankings = [])) := by
  refine ⟨rfl, ?_⟩
  intro s' h
  refine ⟨by rw [indexOp_rankings, h], by rw [indexOp_view, h]; rfl, rfl, ?_⟩
  intro jd files hall
  rw [evaluateOp_of_results_nil jd files s'
    (by rw [processFiles_all_skip files s' [] hall])]
  exact ⟨h, h⟩

/-- Closed instance of C8: clearing the demonstration state and then
serving the index page yields an empty leaderboard. -/
theorem clear_then_reads_empty_witness :
    (clearOp demoState).rankings = [] ∧
    (indexOp (clearOp demoState)).1.rankings = [] :=
  ⟨(clear_then_reads_empty demoState).1,
   ((clear_then_reads_empty demoState).2 (clearOp demoState)
      (clear_then_reads_empty demoState).1).1⟩

/-- C9: on a successful `POST /evaluate`, every reference in the
per-request result list is literally a member of the global leaderboard
(the same heap cell — the same dictionary object), the leaderboard shown
in the response is the stored one, and the rank field read through any
leaderboard position is that position plus one — so each per-request
result displays its rank within the full global leaderboard, earlier
requests included, not within the current batch. -/
theorem results_alias_global_leaderboard (jd : String)
    (files : List FileInput) (s : ServerState) (hv : ValidState s)
    (hnd : s.rankings.Nodup)
    (herr : (evaluateOp jd files s).2.error = none) :
    (∀ r ∈ (evaluateOp jd files s).2.results,
      r ∈ (evaluateOp jd files s).2.rankings) ∧
    (evaluateOp jd files s).2.rankings = (evaluateOp jd files s).1.rankings ∧
    (∀ j r, (evaluateOp jd files s).2.rankings[j]? = some r →
      rankAt (evaluateOp jd files s).1.heap r = some (j + 1)) := by
  by_cases h : (processFiles s [] files).2 = []
  · rw [evaluateOp_of_results_nil jd files s h] at herr
    exact absurd herr (by simp)
  · rw [evaluateOp_of_results_ne jd files s h]
    have hv1 := processFiles_valid files s [] hv
    have hnd1 := processFiles_nodup files s [] hv hnd
    refine ⟨?_, rfl, ?_⟩
    · intro r hr
      have hmem : r ∈ (processFiles s [] files).1.rankings :=
        processFiles_results_mem files s [] (by simp) r hr
      rw [sortAndRank_rankings]
      exact mem_sortByKey.mpr hmem
    · intro j r hjr
      rw [sortAndRank_rankings] at hjr
      exact rankAt_sortAndRank _ hv1 hnd1 j r hjr

/-- Closed instance of C9: evaluating one valid upload against the
demonstration state puts its result reference into the global
leaderboard. -/
theorem results_alias_global_leaderboard_witness :
    ValidState demoState ∧ demoState.rankings.Nodup ∧
    (evaluateOp "jd" [goodFile] demoState).2.error = none ∧
    (∀ r ∈ (evaluateOp "jd" [goodFile] demoState).2.results,
      r ∈ (evaluateOp "jd" [goodFile] demoState).2.rankings) :=
  ⟨by decide, by decide, by decide,
   (results_alias_global_leaderboard "jd" [goodFile] demoState (by decide)
      (by decide) (by decide)).1⟩

/-- C10: `GET /` sorts a fresh copy for rendering — the stored
leaderboard list keeps its order — yet it writes each entry's position in
that sorted copy into the shared dictionaries, changing nothing else of
them; consequently (second conjunct, on a state stored in ascending score
order) the stored order can disagree with the rank fields after the
read. -/
theorem index_mutates_ranks_not_order :
    (∀ s : ServerState, ValidState s → s.rankings.Nodup →
      ((indexOp s).1.rankings = s.rankings ∧
       (indexOp s).2 = sortByKey (scoreAt s.heap) s.rankings ∧
       (∀ j r, (indexOp s).2[j]? = some r →
         entryAt (indexOp s).1.heap r =
           { entryAt s.heap r with rank := some (j + 1) }))) ∧
    (indexOp crossedState).1.rankings.map
        (fun r => rankAt (indexOp crossedState).1.heap r) =
      [some 2, some 1] := by
  constructor
  · intro s hv hnd
    refine ⟨rfl, rfl, ?_⟩
    intro j r hjr
    rw [indexOp_view] at hjr
    rw [indexOp_heap]
    have := entryAt_assignRanks_getElem _ s.heap 1 (nodup_sortByKey hnd)
      (sorted_valid hv) j r hjr
    rw [Nat.add_comm 1 j] at this
    exact this
  · decide

/-- Closed instance of C10: on the crossed state the stored list order is
untouched by the index read. -/
theorem index_mutates_ranks_not_order_witness :
    ValidState crossedState ∧ crossedState.rankings.Nodup ∧
    (indexOp crossedState).1.rankings = crossedState.rankings :=
  ⟨by decide, by decide,
   (index_mutates_ranks_not_order.1 crossedState (by decide) (by decide)).1⟩

end ResumeEval
